import Mathlib

/-!
Shallow embedding of the IPTV updater engine (`vengatesh_iptv_v23.py`) and
verification of its specification claims.

Modelling conventions:
* A raw playlist document is represented by its list of lines (the Python code
  immediately calls `content.splitlines()`); metadata and endpoint lines never
  contain a newline character.
* Python dicts that are only ever extended with fresh keys are represented as
  association lists in insertion order; Python sets of strings as lists with
  membership tests.
* The network is abstracted as a function `reachable : String → Bool` giving
  each endpoint's probe outcome, and per-attempt outcomes as `Option Nat`
  (`none` = the request raised, `some s` = it completed with HTTP status `s`).
* `time.time()` timestamps and printing are dropped: they carry no logical
  content for the claims under verification.
-/

namespace IPTV

/-- The double-quote character. -/
def dq : Char := Char.ofNat 34

/-- The single-quote character. -/
def sq : Char := Char.ofNat 39

/-- Python's `str.strip()` whitespace set (ASCII part): space, \t, \n, \r, \v, \f. -/
def pws (c : Char) : Bool :=
  c = Char.ofNat 32 || c = Char.ofNat 9 || c = Char.ofNat 10 ||
  c = Char.ofNat 13 || c = Char.ofNat 11 || c = Char.ofNat 12

/-- Strip `pws` characters from both ends of a character list (Python `str.strip()`). -/
def pstripL (l : List Char) : List Char :=
  ((l.dropWhile pws).reverse.dropWhile pws).reverse

/-- Python `str.strip()`. -/
def pstrip (s : String) : String := ⟨pstripL s.data⟩

/-- Python `str.startswith(pre)`. -/
def pstarts (s pre : String) : Bool := pre.data.isPrefixOf s.data

/-- Python `str.lower()` (ASCII case folding, which covers the program's inputs). -/
def pyLower (s : String) : String := ⟨s.data.map Char.toLower⟩

/-- Substring containment on character lists (Python `pat in s`). -/
def subIn (pat : List Char) : List Char → Bool
  | [] => pat.isEmpty
  | c :: t => pat.isPrefixOf (c :: t) || subIn pat t

/-- Membership of a string in a list of strings (Python `x in someSet`). -/
def smem : List String → String → Bool
  | [], _ => false
  | c :: t, u => u = c || smem t u

/-- Association-list lookup by string key, first match wins (Python `d[k]` / `d.get(k)`). -/
def alook : List (String × α) → String → Option α
  | [], _ => none
  | p :: t, u => if p.1 = u then some p.2 else alook t u

/-- Key membership in an association list (Python `k in d`). -/
def keyMem (l : List (String × α)) (u : String) : Bool := (alook l u).isSome

/-! ### Utilities from the source (`extract_channel_name` and friends) -/

/--
The suffix of a character list after its last comma, if any comma occurs.
This is the Python regex `re.search(r',([^,\n]*)$', info_line)` specialised to
newline-free input (the program only ever applies it to single stripped lines):
the leftmost position where `,[^,\n]*$` matches is exactly the last comma.
-/
def lastCommaSuffix : List Char → Option (List Char)
  | [] => none
  | c :: t =>
    match lastCommaSuffix t with
    | some r => some r
    | none => if c = Char.ofNat 44 then some t else none

/-- The remainder of the list after the first occurrence of `pat`, if `pat` occurs. -/
def afterFirstSub (pat : List Char) : List Char → Option (List Char)
  | [] => if pat.isEmpty then some [] else none
  | c :: t => if pat.isPrefixOf (c :: t) then some ((c :: t).drop pat.length)
              else afterFirstSub pat t

/-- Capture group of the Python regex `attr=["\']?([^"\']*)`: after the first
occurrence of `attr=`, an optional single quote character is consumed, then
everything up to the next quote (of either kind) is captured. -/
def attrCapture (attr : String) (s : String) : Option String :=
  match afterFirstSub attr.data s.data with
  | none => none
  | some rest =>
    let rest2 := match rest with
      | [] => ([] : List Char)
      | c :: t => if c = dq || c = sq then t else c :: t
    some ⟨rest2.takeWhile (fun c => !(c = dq || c = sq))⟩

/-- Fallback of `extract_channel_name`: the `tvg-name` attribute if non-empty
after stripping, else the literal `"Unknown"`. -/
def nameFallback (info : String) : String :=
  match attrCapture "tvg-name=" info with
  | some g => if pstrip g = "" then "Unknown" else pstrip g
  | none => "Unknown"

/-- `extract_channel_name` from the source: the trailing comma-separated display
name when non-empty after stripping, else the `tvg-name` attribute value when
non-empty after stripping, else `"Unknown"`. -/
def extract_channel_name (info : String) : String :=
  match lastCommaSuffix info.data with
  | some g => if pstrip ⟨g⟩ = "" then nameFallback info else pstrip ⟨g⟩
  | none => nameFallback info

/-- `infer_ott_type` from the source. -/
def infer_ott_type (info url : String) : String :=
  let lower := (pyLower (info ++ url)).data
  if subIn "movie".data lower || subIn "film".data lower || subIn "cinema".data lower ||
     subIn "/movies".data lower || subIn "vod".data lower then "movie"
  else if subIn "series".data lower || subIn "season".data lower || subIn "episode".data lower ||
     subIn "/series".data lower || subIn "web series".data lower then "series"
  else "live"

/-- `generate_synopsis` from the source. -/
def generate_synopsis (title stream_type : String) : String :=
  if stream_type = "movie" then "Full-length cinematic content: " ++ title ++ "."
  else if stream_type = "series" then "Episodic television or web series: " ++ title ++ "."
  else "Live broadcast channel: " ++ title ++ "."

/-- `extract_logo` from the source: the `tvg-logo` attribute if non-empty after
stripping, else the empty string. -/
def extract_logo (info : String) : String :=
  match attrCapture "tvg-logo=" info with
  | some g => if pstrip g = "" then "" else pstrip g
  | none => ""

/-! ### Parsing (`parse_m3u_chunk`, `bulk_parse_contents_optimized`) -/

/-- `lines[i].startswith('#EXTINF:')`. -/
def isExtinf (line : String) : Bool := pstarts line "#EXTINF:"

/-- The endpoint acceptance filter of `parse_m3u_chunk`:
`url.startswith(('http', 'rtmp', 'rtsp')) and '.m3u' not in url.lower()`. -/
def accepts_url (url : String) : Bool :=
  (pstarts url "http" || pstarts url "rtmp" || pstarts url "rtsp") &&
  !(subIn ".m3u".data (pyLower url).data)

/--
The line scan of `parse_m3u_chunk` over one document's lines.  The Python
`while i < len(lines)` loop either consumes two lines when `lines[i]` starts
with `#EXTINF:` and a next line exists (emitting `(url, info)` exactly when the
stripped next line passes `accepts_url`), or advances one line.
-/
def parse_lines : List String → List (String × String)
  | [] => []
  | [_] => []
  | l1 :: l2 :: rest =>
    if isExtinf l1 then
      (if accepts_url (pstrip l2) then [(pstrip l2, pstrip l1)] else []) ++ parse_lines rest
    else
      parse_lines (l2 :: rest)

/-- `parse_m3u_chunk`: scan each document of a chunk and append the results in
order.  A document is represented by its list of lines. -/
def parse_m3u_chunk (chunk : List (List String)) : List (String × String) :=
  (chunk.map parse_lines).flatten

/-- Append a value to the list stored under `name` in the replacement index,
creating the entry if absent (the `if name not in replacement_index: ... ;
replacement_index[name].append(...)` idiom). -/
def idxInsert (idx : List (String × List (String × String))) (name : String)
    (v : String × String) : List (String × List (String × String)) :=
  match idx with
  | [] => [(name, [v])]
  | (k, l) :: rest =>
    if k = name then (k, l ++ [v]) :: rest else (k, l) :: idxInsert rest name v

/-- One iteration of the dictionary-building loop of
`bulk_parse_contents_optimized`: a `(url, info)` pair is recorded only when
`url` is not yet a key of `candidate`, in which case it is also appended to the
replacement index under the lower-cased extracted channel name. -/
def bulkStep (acc : List (String × String) × List (String × List (String × String)))
    (p : String × String) :
    List (String × String) × List (String × List (String × String)) :=
  if (alook acc.1 p.1).isSome then acc
  else (acc.1 ++ [p], idxInsert acc.2 (pyLower (extract_channel_name p.2)) p)

/--
`bulk_parse_contents_optimized` after the parallel parse: fold the flattened
stream list into `(candidate, replacement_index)`.  (The source splits
`contents` into chunks of `CHUNK_SIZE` and maps `parse_m3u_chunk` over them
with a process pool; `executor.map` preserves chunk order, so iterating the
chunk results in order is the same as folding over the concatenated stream
list, which is `parse_m3u_chunk` of all the contents.)
-/
def bulk_parse (streams : List (String × String)) :
    List (String × String) × List (String × List (String × String)) :=
  streams.foldl bulkStep ([], [])

/-! ### Reachability probe (`validate_stream_batch.validate_one`) -/

/-- The two request kinds a probe can issue. -/
inductive Attempt
  | head
  | get
deriving DecidableEq

/-- `resp.status in (200, 206, 302, 304)`. -/
def statusOk (s : Nat) : Bool := s == 200 || s == 206 || s == 302 || s == 304

/--
`validate_one` from the source: issue a redirect-following HEAD request; if it
completes (with any status), the result is whether its status qualifies — no
fallback.  Only if the HEAD request raises is a single redirect-following GET
request issued, with the same status criterion; if that also raises, the
result is `false`.  Returns the reachability verdict together with the list of
attempts actually made, in order.
-/
def validate_one (headR getR : Option Nat) : Bool × List Attempt :=
  match headR with
  | some s => (statusOk s, [Attempt.head])
  | none =>
    match getR with
    | some s => (statusOk s, [Attempt.head, Attempt.get])
    | none => (false, [Attempt.head, Attempt.get])

/--
Probe behaviour as the specification's words describe it (for comparison with
`validate_one`): the fallback GET fires whenever the HEAD attempt "fails for
any reason (network error, timeout, method not allowed, non-qualifying
status)", i.e. also when the HEAD completes with a non-qualifying status.
-/
def claimProbe (headR getR : Option Nat) : Bool × List Attempt :=
  let fallback : Bool × List Attempt :=
    match getR with
    | some s => (statusOk s, [Attempt.head, Attempt.get])
    | none => (false, [Attempt.head, Attempt.get])
  match headR with
  | some s => if statusOk s then (true, [Attempt.head]) else fallback
  | none => fallback

/-! ### Validation, healing and publishing (function `main`, steps 6–7) -/

/-- `MAX_REPLACEMENT_CANDIDATES` from the source configuration. -/
def MAX_REPLACEMENT_CANDIDATES : Nat := 3

/--
Step 6's validation loop: for each candidate endpoint in insertion order, if
its probe succeeded and it is not yet in `global_validated`, append it to
`validated` (with its info) and to `global_validated`.  The accumulator is
`(validated, global_validated)`.  (The source partitions the key list into
batches of 100 and probes each batch concurrently, but every key is probed and
the results are folded in key order, so the batching is invisible here.)
-/
def validate_run (candidate : List (String × String)) (reachable : String → Bool) :
    List (String × String) × List String :=
  candidate.foldl
    (fun acc p =>
      if reachable p.1 && !(smem acc.2 p.1) then (acc.1 ++ [p], acc.2 ++ [p.1]) else acc)
    ([], [])

/-- `broken = [(url, candidate_streams[url]) for url in candidate_streams if url not in validated]`. -/
def brokenOf (candidate validated : List (String × String)) : List (String × String) :=
  candidate.filter (fun p => !(keyMem validated p.1))

/--
The collection loop of the replacement step: for each broken `(url, info)`, the
first `maxC` entries of `replacement_index` under the lower-cased channel name
are considered, and those not already in `global_validated` and not already a
key of `validated` are appended to `replacement_tasks`.  Collection happens in
full before any replacement probing, so the exclusion sets are those at entry.
-/
def replacementTasks (broken : List (String × String))
    (ridx : List (String × List (String × String)))
    (gv : List String) (validated : List (String × String)) (maxC : Nat) : List String :=
  broken.flatMap (fun p =>
    (((alook ridx (pyLower (extract_channel_name p.2))).getD []).take maxC).filterMap
      (fun q => if !(smem gv q.1) && !(keyMem validated q.1) then some q.1 else none))

/--
The add loop over probed replacement candidates: a probed `rep_url` is added to
`validated` (with `candidate_streams[rep_url]`) and `global_validated` exactly
when its probe succeeded, it is a key of `candidate_streams`, and it is not yet
in `global_validated`.
-/
def healStep (reachable : String → Bool) (candidate : List (String × String))
    (acc : List (String × String) × List String) (u : String) :
    List (String × String) × List String :=
  if reachable u && keyMem candidate u && !(smem acc.2 u) then
    (acc.1 ++ [(u, (alook candidate u).getD "")], acc.2 ++ [u])
  else acc

/--
The whole replacement step: collect `replacement_tasks`, probe them all in
batches (every task is probed; the batch boundaries of 50 do not affect the
result because the add loop's `global_validated` guard is threaded through),
then run the add loop.  Returns the probed task list together with the final
`(validated, global_validated)`.
-/
def heal_run (broken : List (String × String))
    (ridx : List (String × List (String × String)))
    (candidate : List (String × String)) (validated : List (String × String))
    (gv : List String) (reachable : String → Bool) (maxC : Nat) :
    List String × (List (String × String) × List String) :=
  let tasks := replacementTasks broken ridx gv validated maxC
  (tasks, tasks.foldl (healStep reachable candidate) (validated, gv))

/-- The validated mapping at the end of steps 5–6 of `main` (parse, build
index, validate, replace), for documents given as line lists and a probe
outcome function. -/
def run_pipeline (contents : List (List String)) (reachable : String → Bool) :
    List (String × String) :=
  let bp := bulk_parse (parse_m3u_chunk contents)
  let v6 := validate_run bp.1 reachable
  let broken := brokenOf bp.1 v6.1
  (heal_run broken bp.2 bp.1 v6.1 v6.2 reachable MAX_REPLACEMENT_CANDIDATES).2.1

/-- `global_total` as written to the snapshot document: `len(validated)` of
this run only — the program reads no previous snapshot. -/
def global_total (validated : List (String × String)) : Nat := validated.length

/-- One entry of the `json_validated` mapping in the snapshot document. -/
structure PublishedEntry where
  info : String
  ok : Bool
  title : String
  typ : String
  synopsis : String
  image : String
deriving DecidableEq

/-- The `json_validated` mapping of step 7: one entry per `validated` item, in
order, keyed by endpoint, with `ok` hard-coded to `True` and presentation
metadata derived from the info line. -/
def json_entries (validated : List (String × String)) : List (String × PublishedEntry) :=
  validated.map (fun p =>
    let title := extract_channel_name p.2
    let typ := infer_ott_type p.2 p.1
    (p.1, { info := p.2, ok := true, title := title, typ := typ,
            synopsis := generate_synopsis title typ, image := extract_logo p.2 }))

/-- `EPG_SOURCES` from the source configuration. -/
def EPG_SOURCES : List String :=
  ["https://iptv-org.github.io/epg/guides/ALL.xml.gz",
   "https://raw.githubusercontent.com/mitthu786/tvepg/main/tataplay/epg.xml.gz",
   "https://raw.githubusercontent.com/iptv-org/epg/master/guides/in.xml",
   "https://raw.githubusercontent.com/iptv-org/epg/master/guides/us.xml",
   "https://raw.githubusercontent.com/iptv-org/epg/master/guides/uk.xml",
   "https://epg.provider.iptvorg.org/epg.xml.gz",
   "https://raw.githubusercontent.com/koditv/epg/main/epg.xml"]

/-- The playlist header line of step 7:
`#EXTM3U x-tvg-url="<comma-joined EPG_SOURCES>"`. -/
def m3u_header : String :=
  "#EXTM3U x-tvg-url=\"" ++ String.intercalate "," EPG_SOURCES ++ "\""

/-- The emitted playlist of step 7: the `#EXTM3U` header line, then the info
line and the endpoint line of each validated entry, in order. -/
def build_m3u (validated : List (String × String)) : List String :=
  m3u_header :: validated.flatMap (fun p => [p.2, p.1])

/-! ### Specification-side definitions used to state refuted claims -/

/--
Candidate selection as claim C3 words it: the identity's alternates after
excluding the broken endpoint itself, every already-confirmed endpoint and
every already-healed endpoint, then the first `maxC` of what remains.
-/
def claimProbeSet (e : String) (alts : List (String × String))
    (confirmed healed : List String) (maxC : Nat) : List String :=
  ((alts.filter
      (fun q => !(q.1 = e : Bool) && !(smem confirmed q.1) && !(smem healed q.1))).take
    maxC).map Prod.fst

/--
Record recognition as claim C7 words it: one record for every adjacent pair of
a metadata line followed by an endpoint line passing the acceptance filter.
-/
def motifRecords (doc : List String) : List (String × String) :=
  (doc.zip doc.tail).filterMap (fun q =>
    if isExtinf q.1 && accepts_url (pstrip q.2) then some (pstrip q.2, pstrip q.1) else none)

/-- No two consecutive lines of the document both start with `#EXTINF:`. -/
def noAdjExtinf : List String → Bool
  | l1 :: l2 :: rest => (!(isExtinf l1 && isExtinf l2)) && noAdjExtinf (l2 :: rest)
  | _ => true

/-! ### Small statement-side helpers -/

/-- Left-biased choice on options (`a` if present, else `b`). -/
def ofb : Option α → Option α → Option α
  | some v, _ => some v
  | none, b => b

/-- The trailing comma-separated display name of a metadata line, stripped;
`""` when the line has no comma. -/
def trailingName (info : String) : String :=
  match lastCommaSuffix info.data with
  | some g => pstrip ⟨g⟩
  | none => ""

/-- The `tvg-name` attribute value of a metadata line, stripped; `""` when the
attribute is absent. -/
def tvgTrimmed (info : String) : String :=
  match attrCapture "tvg-name=" info with
  | some g => pstrip g
  | none => ""

/-- Invariant of the `(validated, global_validated)` accumulator threaded
through validation and replacement: the set mirrors the mapping's keys, the
keys are pairwise distinct, and every validated endpoint probed reachable. -/
def PipeInv (reachable : String → Bool) (acc : List (String × String) × List String) : Prop :=
  acc.2 = acc.1.map Prod.fst ∧ acc.2.Nodup ∧ ∀ r ∈ acc.1, reachable r.1 = true

/-! ### Helper lemmas -/

@[simp]
theorem ofb_some (v : α) (b : Option α) : ofb (some v) b = some v := rfl

@[simp]
theorem ofb_none (b : Option α) : ofb none b = b := rfl

theorem smem_iff (l : List String) (u : String) : smem l u = true ↔ u ∈ l := by
  induction l with
  | nil => simp [smem]
  | cons c t ih => simp [smem, ih, List.mem_cons]

theorem smem_append (l1 l2 : List String) (u : String) :
    smem (l1 ++ l2) u = (smem l1 u || smem l2 u) := by
  induction l1 with
  | nil => simp [smem]
  | cons c t ih => simp [smem, ih, Bool.or_assoc]

theorem alook_eq_none (l : List (String × α)) (u : String) :
    alook l u = none ↔ u ∉ l.map Prod.fst := by
  induction l with
  | nil => simp [alook]
  | cons p t ih =>
    by_cases h : p.1 = u
    · subst h; simp [alook]
    · simp [alook, h, ih, Ne.symm h]

theorem alook_append (l1 l2 : List (String × α)) (u : String) :
    alook (l1 ++ l2) u = ofb (alook l1 u) (alook l2 u) := by
  induction l1 with
  | nil => simp [alook]
  | cons p t ih =>
    by_cases h : p.1 = u <;> simp [alook, h, ih]

theorem foldl_inv (step : α → β → α) (P : α → Prop)
    (hstep : ∀ a b, P a → P (step a b)) :
    ∀ (l : List β) (a : α), P a → P (l.foldl step a) := by
  intro l
  induction l with
  | nil => intro a h; simpa using h
  | cons b t ih => intro a h; simpa using ih _ (hstep a b h)

theorem nodup_append_one (l : List α) (a : α) :
    (l ++ [a]).Nodup ↔ l.Nodup ∧ a ∉ l := by
  simp [List.nodup_append, List.disjoint_singleton]

theorem filter_map_of_if (c : (String × String) → Bool) (l : List (String × String)) :
    l.filterMap (fun q => if c q then some q.1 else none) = (l.filter c).map Prod.fst := by
  induction l with
  | nil => rfl
  | cons q t ih => by_cases h : c q <;> simp [h, ih]

theorem dropWhile_head_false (p : Char → Bool) :
    ∀ (l : List Char) (c : Char) (t : List Char), l.dropWhile p = c :: t → p c = false := by
  intro l
  induction l with
  | nil => intro c t h; simp [List.dropWhile] at h
  | cons a l ih =>
    intro c t h
    rw [List.dropWhile_cons] at h
    by_cases hp : p a
    · rw [if_pos hp] at h; exact ih c t h
    · rw [if_neg hp] at h
      obtain ⟨rfl, -⟩ := List.cons.inj h
      simpa using hp

theorem dropWhile_self_of_drop (p : Char → Bool) (m l : List Char)
    (hm : l.dropWhile p = m) : m.dropWhile p = m := by
  cases hc : m with
  | nil => simp
  | cons c t =>
    have hcf : p c = false := dropWhile_head_false p l c t (hc ▸ hm)
    rw [List.dropWhile_cons, if_neg (by simp [hcf])]

theorem strip_prefix_decomp (m : List Char) :
    (m.reverse.dropWhile pws).reverse ++ (m.reverse.takeWhile pws).reverse = m := by
  rw [← List.reverse_append, List.takeWhile_append_dropWhile, List.reverse_reverse]

theorem stripL_head_false (l : List Char) (c : Char) (t : List Char)
    (h : pstripL l = c :: t) : pws c = false := by
  have hd := strip_prefix_decomp (l.dropWhile pws)
  have h2 : ((l.dropWhile pws).reverse.dropWhile pws).reverse = c :: t := h
  rw [h2] at hd
  exact dropWhile_head_false pws l c _ (by simpa using hd.symm)

theorem stripL_dropWhile (l : List Char) : (pstripL l).dropWhile pws = pstripL l := by
  cases hc : pstripL l with
  | nil => simp
  | cons c t =>
    have hcf := stripL_head_false l c t hc
    rw [List.dropWhile_cons, if_neg (by simp [hcf])]

theorem stripL_rev_dropWhile (l : List Char) :
    (pstripL l).reverse.dropWhile pws = (pstripL l).reverse := by
  have h : (pstripL l).reverse = (l.dropWhile pws).reverse.dropWhile pws := by
    unfold pstripL; rw [List.reverse_reverse]
  rw [h]
  exact dropWhile_self_of_drop pws _ (l.dropWhile pws).reverse rfl

theorem pstripL_idem (l : List Char) : pstripL (pstripL l) = pstripL l := by
  have h : pstripL (pstripL l)
      = (((pstripL l).dropWhile pws).reverse.dropWhile pws).reverse := rfl
  rw [h, stripL_dropWhile, stripL_rev_dropWhile, List.reverse_reverse]

theorem pstrip_idem (s : String) : pstrip (pstrip s) = pstrip s := by
  unfold pstrip
  exact congrArg String.mk (pstripL_idem s.data)

theorem idxInsert_alook (idx : List (String × List (String × String))) (name : String)
    (v : String × String) (k : String) :
    alook (idxInsert idx name v) k
      = if name = k then some (((alook idx name).getD []) ++ [v]) else alook idx k := by
  induction idx with
  | nil =>
    by_cases h : name = k <;> simp [idxInsert, alook, h]
  | cons p t ih =>
    obtain ⟨pk, pl⟩ := p
    by_cases h1 : pk = name
    · subst h1
      by_cases h2 : pk = k <;> simp [idxInsert, alook, h2]
    · by_cases h2 : pk = k
      · subst h2
        have hnk : ¬ name = pk := fun hh => h1 hh.symm
        simp [idxInsert, h1, alook, hnk]
      · simp [idxInsert, h1, alook, h2, ih]

theorem bulk_fold_alook (streams : List (String × String)) :
    ∀ (acc : List (String × String) × List (String × List (String × String))) (u : String),
      alook (streams.foldl bulkStep acc).1 u = ofb (alook acc.1 u) (alook streams u) := by
  induction streams with
  | nil =>
    intro acc u
    cases h : alook acc.1 u <;> simp [alook, h]
  | cons p t ih =>
    intro acc u
    rw [List.foldl_cons, ih]
    by_cases hp : (alook acc.1 p.1).isSome
    · have hstep : bulkStep acc p = acc := by simp [bulkStep, hp]
      rw [hstep]
      by_cases hu : p.1 = u
      · subst hu
        obtain ⟨v, hv⟩ := Option.isSome_iff_exists.mp hp
        simp [hv, alook]
      · simp [alook, hu]
    · have hstep : bulkStep acc p
          = (acc.1 ++ [p], idxInsert acc.2 (pyLower (extract_channel_name p.2)) p) := by
        simp [bulkStep, hp]
      have hnone : alook acc.1 p.1 = none := Option.not_isSome_iff_eq_none.mp hp
      rw [hstep]
      by_cases hu : p.1 = u
      · subst hu
        rw [alook_append]
        simp [hnone, alook]
      · rw [alook_append]
        simp only [alook, hu, if_neg hu]
        cases h : alook acc.1 u <;> simp [h]

theorem bulk_fold_inv :
    ∀ (streams : List (String × String))
      (acc : List (String × String) × List (String × List (String × String))),
      ((acc.1.map Prod.fst).Nodup ∧
        ∀ k lst, alook acc.2 k = some lst →
          (lst.map Prod.fst).Nodup ∧ ∀ q ∈ lst, q.1 ∈ acc.1.map Prod.fst) →
      (((streams.foldl bulkStep acc).1.map Prod.fst).Nodup ∧
        ∀ k lst, alook (streams.foldl bulkStep acc).2 k = some lst →
          (lst.map Prod.fst).Nodup ∧ ∀ q ∈ lst, q.1 ∈ (streams.foldl bulkStep acc).1.map Prod.fst) := by
  intro streams
  refine foldl_inv bulkStep _ ?_ streams
  intro acc p hP
  obtain ⟨hnd, hidx⟩ := hP
  by_cases hp : (alook acc.1 p.1).isSome
  · have hstep : bulkStep acc p = acc := by simp [bulkStep, hp]
    rw [hstep]; exact ⟨hnd, hidx⟩
  · have hnone : alook acc.1 p.1 = none := Option.not_isSome_iff_eq_none.mp hp
    have hfresh : p.1 ∉ acc.1.map Prod.fst := (alook_eq_none acc.1 p.1).mp hnone
    have hstep : bulkStep acc p
        = (acc.1 ++ [p], idxInsert acc.2 (pyLower (extract_channel_name p.2)) p) := by
      simp [bulkStep, hp]
    rw [hstep]
    constructor
    · simp only [List.map_append, List.map_cons, List.map_nil]
      exact (nodup_append_one _ _).mpr ⟨hnd, hfresh⟩
    · intro k lst hlk
      rw [idxInsert_alook] at hlk
      by_cases hk : pyLower (extract_channel_name p.2) = k
      · rw [if_pos hk] at hlk
        have hlst : lst = ((alook acc.2 (pyLower (extract_channel_name p.2))).getD []) ++ [p] :=
          (Option.some.inj hlk).symm
        subst hlst
        cases hold : alook acc.2 (pyLower (extract_channel_name p.2)) with
        | none =>
          simp only [hold, Option.getD_none, List.nil_append]
          refine ⟨by simp, ?_⟩
          intro q hq
          simp only [List.mem_singleton] at hq
          subst hq
          simp
        | some oldl =>
          obtain ⟨hondup, homem⟩ := hidx _ _ hold
          simp only [hold, Option.getD_some]
          constructor
          · simp only [List.map_append, List.map_cons, List.map_nil]
            refine (nodup_append_one _ _).mpr ⟨hondup, ?_⟩
            intro hmem
            obtain ⟨q, hq, hq1⟩ := List.mem_map.mp hmem
            exact hfresh (hq1 ▸ homem q hq)
          · intro q hq
            simp only [List.map_append]
            rcases List.mem_append.mp hq with hq | hq
            · exact List.mem_append.mpr (Or.inl (homem q hq))
            · simp only [List.mem_singleton] at hq
              subst hq
              simp
      · rw [if_neg hk] at hlk
        obtain ⟨hl1, hl2⟩ := hidx _ _ hlk
        refine ⟨hl1, fun q hq => ?_⟩
        simp only [List.map_append]
        exact List.mem_append.mpr (Or.inl (hl2 q hq))

theorem pipeinv_guarded_add (reachable : String → Bool)
    (acc : List (String × String) × List String) (q : String × String)
    (hP : PipeInv reachable acc) (hq : reachable q.1 = true)
    (hmem : smem acc.2 q.1 = false) :
    PipeInv reachable (acc.1 ++ [q], acc.2 ++ [q.1]) := by
  obtain ⟨hsync, hnd, hre⟩ := hP
  have hnotin : q.1 ∉ acc.2 := by
    intro hc
    rw [(smem_iff acc.2 q.1).mpr hc] at hmem
    simp at hmem
  refine ⟨?_, ?_, ?_⟩
  · simp [hsync]
  · exact (nodup_append_one _ _).mpr ⟨hnd, hnotin⟩
  · intro r hr
    rcases List.mem_append.mp hr with hr | hr
    · exact hre r hr
    · simp only [List.mem_singleton] at hr
      subst hr
      exact hq

theorem validate_run_inv (candidate : List (String × String)) (reachable : String → Bool) :
    PipeInv reachable (validate_run candidate reachable) := by
  unfold validate_run
  refine foldl_inv _ (PipeInv reachable) ?_ candidate ([], []) ⟨rfl, List.nodup_nil, by simp⟩
  intro acc p hP
  by_cases h : reachable p.1 && !(smem acc.2 p.1)
  · rw [if_pos h]
    obtain ⟨h1, h2⟩ := Bool.and_eq_true_iff.mp h
    exact pipeinv_guarded_add reachable acc p hP h1 (by
      cases hsm : smem acc.2 p.1
      · rfl
      · rw [hsm] at h2; exact absurd h2 (by simp))
  · rw [if_neg h]
    exact hP

theorem healStep_inv (reachable : String → Bool) (candidate : List (String × String))
    (acc : List (String × String) × List String) (u : String)
    (hP : PipeInv reachable acc) : PipeInv reachable (healStep reachable candidate acc u) := by
  unfold healStep
  by_cases h : reachable u && keyMem candidate u && !(smem acc.2 u)
  · rw [if_pos h]
    obtain ⟨h12, h3⟩ := Bool.and_eq_true_iff.mp h
    obtain ⟨h1, _⟩ := Bool.and_eq_true_iff.mp h12
    exact pipeinv_guarded_add reachable acc (u, (alook candidate u).getD "") hP h1 (by
      cases hsm : smem acc.2 u
      · rfl
      · rw [hsm] at h3; exact absurd h3 (by simp))
  · rw [if_neg h]
    exact hP

theorem heal_fold_inv (reachable : String → Bool) (candidate : List (String × String))
    (tasks : List String) (acc : List (String × String) × List String)
    (hP : PipeInv reachable acc) :
    PipeInv reachable (tasks.foldl (healStep reachable candidate) acc) :=
  foldl_inv _ (PipeInv reachable) (fun a u hp => healStep_inv reachable candidate a u hp) tasks acc hP

theorem run_pipeline_inv (contents : List (List String)) (reachable : String → Bool) :
    ((run_pipeline contents reachable).map Prod.fst).Nodup ∧
      ∀ r ∈ run_pipeline contents reachable, reachable r.1 = true := by
  unfold run_pipeline heal_run
  set bp := bulk_parse (parse_m3u_chunk contents)
  have h6 := validate_run_inv bp.1 reachable
  have hf := heal_fold_inv reachable bp.1
    (replacementTasks (brokenOf bp.1 (validate_run bp.1 reachable).1) bp.2
      (validate_run bp.1 reachable).2 (validate_run bp.1 reachable).1 MAX_REPLACEMENT_CANDIDATES)
    (validate_run bp.1 reachable) h6
  obtain ⟨hsync, hnd, hre⟩ := hf
  exact ⟨hsync ▸ hnd, hre⟩

theorem heal_fold_new_mem (reachable : String → Bool) (candidate : List (String × String))
    (u : String) :
    ∀ (tasks : List String) (acc : List (String × String) × List String),
      smem (tasks.foldl (healStep reachable candidate) acc).2 u = true →
      smem acc.2 u = true ∨ (reachable u = true ∧ u ∈ tasks) := by
  intro tasks
  induction tasks with
  | nil => intro acc h; exact Or.inl h
  | cons t ts ih =>
    intro acc h
    rw [List.foldl_cons] at h
    rcases ih _ h with h2 | h2
    · unfold healStep at h2
      by_cases hg : reachable t && keyMem candidate t && !(smem acc.2 t)
      · rw [if_pos hg] at h2
        rw [smem_append] at h2
        rcases Bool.or_eq_true_iff.mp h2 with h3 | h3
        · exact Or.inl h3
        · have ht : u = t := by
            have : (u = t : Bool) || false = true := by simpa [smem] using h3
            simpa using this
          subst ht
          obtain ⟨h12, -⟩ := Bool.and_eq_true_iff.mp hg
          obtain ⟨h1, -⟩ := Bool.and_eq_true_iff.mp h12
          exact Or.inr ⟨h1, List.mem_cons_self u ts⟩
      · rw [if_neg hg] at h2
        exact Or.inl h2
    · exact Or.inr ⟨h2.1, List.mem_cons_of_mem t h2.2⟩

theorem pstrip_unknown : pstrip "Unknown" = "Unknown" := by decide

theorem unknown_ne_empty : ("Unknown" : String) ≠ "" := by decide

theorem motif_nil : motifRecords [] = [] := rfl

theorem motif_single (l : String) : motifRecords [l] = [] := rfl

theorem motif_cons (l1 l2 : String) (rest : List String) :
    motifRecords (l1 :: l2 :: rest)
      = (if isExtinf l1 && accepts_url (pstrip l2) then [(pstrip l2, pstrip l1)] else [])
        ++ motifRecords (l2 :: rest) := by
  unfold motifRecords
  simp only [List.tail_cons, List.zip_cons_cons, List.filterMap_cons]
  by_cases h : isExtinf l1 && accepts_url (pstrip l2) <;> simp [h]

theorem motif_skip (x : String) (xs : List String) (h : isExtinf x = false) :
    motifRecords (x :: xs) = motifRecords xs := by
  cases xs with
  | nil => rfl
  | cons r rs =>
    rw [motif_cons, h]
    simp

theorem noAdj_tail (x : String) (xs : List String) (h : noAdjExtinf (x :: xs) = true) :
    noAdjExtinf xs = true := by
  cases xs with
  | nil => rfl
  | cons y ys =>
    unfold noAdjExtinf at h
    exact (Bool.and_eq_true_iff.mp h).2

theorem alook_mem (l : List (String × α)) (u : String) (v : α) (h : alook l u = some v) :
    (u, v) ∈ l := by
  induction l with
  | nil => simp [alook] at h
  | cons p t ih =>
    unfold alook at h
    by_cases hp : p.1 = u
    · rw [if_pos hp] at h
      have hv : v = p.2 := (Option.some.inj h).symm
      subst hv
      rw [← hp]
      exact List.mem_cons_self _ _
    · rw [if_neg hp] at h
      exact List.mem_cons_of_mem _ (ih h)

theorem prefix_head_eq (d : List Char) (c1 c2 : Char) (l1 l2 : List Char)
    (h1 : (c1 :: l1).isPrefixOf d = true) (h2 : (c2 :: l2).isPrefixOf d = true) :
    c1 = c2 := by
  cases d with
  | nil => simp [List.isPrefixOf] at h1
  | cons x xs =>
    simp [List.isPrefixOf] at h1 h2
    exact h1.1.trans h2.1.symm

theorem accepts_not_extinf (u : String) (h : accepts_url u = true) : isExtinf u = false := by
  unfold accepts_url at h
  obtain ⟨hstart, -⟩ := Bool.and_eq_true_iff.mp h
  cases hx : isExtinf u
  · rfl
  · exfalso
    have hx2 : ('#' :: "EXTINF:".data).isPrefixOf u.data = true := hx
    rcases Bool.or_eq_true_iff.mp hstart with h1 | h1
    · rcases Bool.or_eq_true_iff.mp h1 with h2 | h2
      · have hh : ('h' :: "ttp".data).isPrefixOf u.data = true := h2
        exact absurd (prefix_head_eq u.data 'h' '#' _ _ hh hx2) (by decide)
      · have hh : ('r' :: "tmp".data).isPrefixOf u.data = true := h2
        exact absurd (prefix_head_eq u.data 'r' '#' _ _ hh hx2) (by decide)
    · have hh : ('r' :: "tsp".data).isPrefixOf u.data = true := h1
      exact absurd (prefix_head_eq u.data 'r' '#' _ _ hh hx2) (by decide)

theorem dropWhile_append_keep (p : Char → Bool) (c : Char) (l2 : List Char)
    (hc : p c = false) :
    ∀ l1 : List Char, ∃ l3, (l1 ++ c :: l2).dropWhile p = l3 ++ c :: l2 := by
  intro l1
  induction l1 with
  | nil => exact ⟨[], by simp [List.dropWhile_cons, hc]⟩
  | cons a t ih =>
    by_cases hp : p a
    · obtain ⟨l3, hl3⟩ := ih
      exact ⟨l3, by simpa [List.cons_append, List.dropWhile_cons, hp] using hl3⟩
    · exact ⟨a :: t, by simp [List.cons_append, List.dropWhile_cons, hp]⟩

theorem isExtinf_pstrip (l : String) (h : isExtinf l = true) : isExtinf (pstrip l) = true := by
  unfold isExtinf pstarts at h ⊢
  obtain ⟨t, ht⟩ := List.isPrefixOf_iff_prefix.mp h
  show ("#EXTINF:".data).isPrefixOf (pstripL l.data) = true
  rw [← ht]
  have hfront : ("#EXTINF:".data ++ t).dropWhile pws = "#EXTINF:".data ++ t := by
    have hcons : ("#EXTINF:".data ++ t) = '#' :: ("EXTINF:".data ++ t) := by
      rw [show ("#EXTINF:".data) = '#' :: "EXTINF:".data from by decide]
      rfl
    rw [hcons, List.dropWhile_cons, if_neg (by decide)]
  have hrev : ("#EXTINF:".data ++ t).reverse = t.reverse ++ ':' :: ("#EXTINF".data).reverse := by
    rw [List.reverse_append]
    rw [show ("#EXTINF:".data).reverse = ':' :: ("#EXTINF".data).reverse from by decide]
  obtain ⟨l3, hl3⟩ :=
    dropWhile_append_keep pws ':' (("#EXTINF".data).reverse) (by decide) t.reverse
  unfold pstripL
  rw [hfront, hrev, hl3]
  rw [List.reverse_append]
  refine List.isPrefixOf_iff_prefix.mpr ?_
  refine ⟨l3.reverse, ?_⟩
  have hback : (':' :: ("#EXTINF".data).reverse).reverse = "#EXTINF:".data := by decide
  rw [hback]

theorem parse_lines_sound :
    ∀ (doc : List String) (q : String × String), q ∈ parse_lines doc →
      isExtinf q.2 = true ∧ accepts_url q.1 = true := by
  intro doc
  induction doc using parse_lines.induct with
  | case1 => intro q hq; simp [parse_lines] at hq
  | case2 l => intro q hq; simp [parse_lines] at hq
  | case3 l1 l2 rest h ih =>
    intro q hq
    have hl : parse_lines (l1 :: l2 :: rest)
        = (if accepts_url (pstrip l2) then [(pstrip l2, pstrip l1)] else [])
          ++ parse_lines rest := by
      simp [parse_lines, h]
    rw [hl] at hq
    rcases List.mem_append.mp hq with hq | hq
    · by_cases ha : accepts_url (pstrip l2)
      · rw [if_pos ha] at hq
        simp only [List.mem_singleton] at hq
        subst hq
        exact ⟨isExtinf_pstrip l1 h, ha⟩
      · rw [if_neg ha] at hq
        simp at hq
    · exact ih q hq
  | case4 l1 l2 rest h ih =>
    intro q hq
    have h2 : isExtinf l1 = false := by
      cases hx : isExtinf l1
      · rfl
      · exact absurd hx h
    have hl : parse_lines (l1 :: l2 :: rest) = parse_lines (l2 :: rest) := by
      simp [parse_lines, h2]
    rw [hl] at hq
    exact ih q hq

theorem parse_chunk_sound (chunk : List (List String)) (q : String × String)
    (hq : q ∈ parse_m3u_chunk chunk) :
    isExtinf q.2 = true ∧ accepts_url q.1 = true := by
  unfold parse_m3u_chunk at hq
  obtain ⟨m, hm, hqm⟩ := List.mem_flatten.mp hq
  obtain ⟨doc, -, hdoc⟩ := List.mem_map.mp hm
  exact parse_lines_sound doc q (hdoc ▸ hqm)

theorem bulk_fold_sub (R : String × String → Prop) :
    ∀ (streams : List (String × String))
      (acc : List (String × String) × List (String × List (String × String))),
      (∀ q ∈ acc.1, R q) → (∀ q ∈ streams, R q) →
      ∀ q ∈ (streams.foldl bulkStep acc).1, R q := by
  intro streams
  induction streams with
  | nil =>
    intro acc hacc _ q hq
    exact hacc q (by simpa using hq)
  | cons p t ih =>
    intro acc hacc hstr q hq
    rw [List.foldl_cons] at hq
    refine ih (bulkStep acc p) ?_ (fun r hr => hstr r (List.mem_cons_of_mem _ hr)) q hq
    intro r hr
    by_cases hp : (alook acc.1 p.1).isSome
    · have hstep : bulkStep acc p = acc := by simp [bulkStep, hp]
      rw [hstep] at hr
      exact hacc r hr
    · have hstep : bulkStep acc p
          = (acc.1 ++ [p], idxInsert acc.2 (pyLower (extract_channel_name p.2)) p) := by
        simp [bulkStep, hp]
      rw [hstep] at hr
      rcases List.mem_append.mp hr with hr | hr
      · exact hacc r hr
      · simp only [List.mem_singleton] at hr
        rw [hr]
        exact hstr p (List.mem_cons_self _ _)

theorem candidate_sound (contents : List (List String)) (q : String × String)
    (hq : q ∈ (bulk_parse (parse_m3u_chunk contents)).1) :
    isExtinf q.2 = true ∧ accepts_url q.1 = true := by
  unfold bulk_parse at hq
  exact bulk_fold_sub _ (parse_m3u_chunk contents) ([], []) (by simp)
    (fun r hr => parse_chunk_sound contents r hr) q hq

theorem candidate_key_accepts (contents : List (List String)) (u : String)
    (hk : keyMem (bulk_parse (parse_m3u_chunk contents)).1 u = true) :
    accepts_url u = true := by
  unfold keyMem at hk
  obtain ⟨v, hv⟩ := Option.isSome_iff_exists.mp hk
  exact (candidate_sound contents (u, v) (alook_mem _ u v hv)).2

theorem foldl_inv_mem (step : α → β → α) (P : α → Prop) :
    ∀ (l : List β), (∀ a b, b ∈ l → P a → P (step a b)) → ∀ a, P a → P (l.foldl step a) := by
  intro l
  induction l with
  | nil => intro _ a h; simpa using h
  | cons b t ih =>
    intro hstep a h
    rw [List.foldl_cons]
    exact ih (fun a2 b2 hb2 h2 => hstep a2 b2 (List.mem_cons_of_mem _ hb2) h2) _
      (hstep a b (List.mem_cons_self _ _) h)

theorem validate_run_info (cand : List (String × String)) (re : String → Bool)
    (hc : ∀ q ∈ cand, isExtinf q.2 = true) :
    ∀ q ∈ (validate_run cand re).1, isExtinf q.2 = true := by
  unfold validate_run
  refine foldl_inv_mem _
    (fun acc : List (String × String) × List String => ∀ q ∈ acc.1, isExtinf q.2 = true)
    cand ?_ ([], []) (by simp)
  intro acc p hp hP q hq
  by_cases hg : re p.1 && !(smem acc.2 p.1)
  · simp only [if_pos hg] at hq
    rcases List.mem_append.mp hq with hq | hq
    · exact hP q hq
    · simp only [List.mem_singleton] at hq
      rw [hq]
      exact hc p hp
  · simp only [if_neg hg] at hq
    exact hP q hq

theorem heal_fold_info (re : String → Bool) (cand : List (String × String))
    (hc : ∀ q ∈ cand, isExtinf q.2 = true) (tasks : List String)
    (acc : List (String × String) × List String)
    (hacc : ∀ q ∈ acc.1, isExtinf q.2 = true) :
    ∀ q ∈ (tasks.foldl (healStep re cand) acc).1, isExtinf q.2 = true := by
  refine foldl_inv (healStep re cand) (fun a => ∀ q ∈ a.1, isExtinf q.2 = true) ?_ tasks acc hacc
  intro a u hP q hq
  unfold healStep at hq
  by_cases hg : re u && keyMem cand u && !(smem a.2 u)
  · simp only [if_pos hg] at hq
    rcases List.mem_append.mp hq with hq | hq
    · exact hP q hq
    · simp only [List.mem_singleton] at hq
      subst hq
      obtain ⟨h12, -⟩ := Bool.and_eq_true_iff.mp hg
      obtain ⟨-, hk⟩ := Bool.and_eq_true_iff.mp h12
      obtain ⟨v, hv⟩ := Option.isSome_iff_exists.mp hk
      have hvm := hc (u, v) (alook_mem cand u v hv)
      simpa [hv] using hvm
  · simp only [if_neg hg] at hq
    exact hP q hq

theorem run_pipeline_info (contents : List (List String)) (reachable : String → Bool) :
    ∀ q ∈ run_pipeline contents reachable, isExtinf q.2 = true := by
  unfold run_pipeline heal_run
  set bp := bulk_parse (parse_m3u_chunk contents)
  have hcand : ∀ r ∈ bp.1, isExtinf r.2 = true :=
    fun r hr => (candidate_sound contents r hr).1
  have h6 := validate_run_info bp.1 reachable hcand
  exact heal_fold_info reachable bp.1 hcand _ _ h6

/-! ### Claim theorems -/

/--
C1: the monotonicity claim does not hold of the code.  The published total is
`len(validated)` of the current run alone — `main` never reads the previously
persisted snapshot, and no merge with carried-forward entries exists — so a
run in which zero candidates probe reachable publishes total `0`, strictly
below a previous snapshot holding one entry.  Here the previous snapshot is
represented by its validated mapping `[("http://u1", "#EXTINF:-1,A")]`
(total 1), and the current run parses the same source but every probe fails:
the code publishes `0 < 1`, violating `Snapshot(n).total >= Snapshot(n-1).total`.
-/
theorem c1_total_not_monotonic :
    global_total (run_pipeline [["#EXTINF:-1,A", "http://u1"]] (fun _ => false))
      < global_total [("http://u1", "#EXTINF:-1,A")] := by decide

/--
C2 counterexample: healing does not stop at the first success, and more than
one substitute can be added for a single broken identity.  Broken endpoint
`e` of identity `X` has index list `[a, b, e]`; both `a` and `b` probe
reachable.  The code collects all capped candidates up front (tasks
`[a, b, e]` — so `b` is probed even though `a`, earlier in insertion order,
is reachable) and then adds **both** `a` and `b` to the validated mapping:
two substitutes for one broken identity, refuting "at most one substitute is
added per broken identity" and "once an alternate probes reachable no further
alternates for that identity are probed".
-/
theorem c2_counterexample :
    heal_run [("e", "#EXTINF:-1,X")]
        [("x", [("a", "#EXTINF:-1,X"), ("b", "#EXTINF:-1,X"), ("e", "#EXTINF:-1,X")])]
        [("a", "#EXTINF:-1,X"), ("b", "#EXTINF:-1,X"), ("e", "#EXTINF:-1,X")] [] []
        (fun u => u == "a" || u == "b") 3
      = (["a", "b", "e"],
         ([("a", "#EXTINF:-1,X"), ("b", "#EXTINF:-1,X")], ["a", "b"])) := by decide

/--
C2 amended: the resolver collects the capped candidate list per broken
endpoint up front and probes every collected candidate in a batch, regardless
of earlier successes; every probed candidate that is reachable (and is a key
of the candidate mapping and not yet validated) is added, so several
substitutes may be added per broken identity.  First conjunct: in the claim's
scenario — identity list `[A, B, C]` ahead of the broken endpoint `e`, only
`C` reachable, cap 3 — the candidates `A, B, C` are all probed, in insertion
order, and exactly `C` is returned.  Second conjunct: in general, every
endpoint newly validated by the replacement step probed reachable and was
among the probed tasks.
-/
theorem c2_amended :
    (heal_run [("e", "#EXTINF:-1,X")]
        [("x", [("a", "ia"), ("b", "ib"), ("c", "ic"), ("e", "ie")])]
        [("a", "ia"), ("b", "ib"), ("c", "ic"), ("e", "ie")] [] []
        (fun u => u == "c") 3
      = (["a", "b", "c"], ([("c", "ic")], ["c"]))) ∧
    (∀ (broken : List (String × String)) (ridx : List (String × List (String × String)))
       (candidate validated : List (String × String)) (gv : List String)
       (reachable : String → Bool) (maxC : Nat) (u : String),
      smem (heal_run broken ridx candidate validated gv reachable maxC).2.2 u = true →
      smem gv u = true ∨
        (reachable u = true ∧
          u ∈ (heal_run broken ridx candidate validated gv reachable maxC).1)) := by
  constructor
  · decide
  · intro broken ridx candidate validated gv reachable maxC u h
    exact heal_fold_new_mem reachable candidate u _ _ h

/-- C2 amended, witness: in the concrete scenario of the first conjunct the
endpoint `c` is newly validated, and the general conjunct instantiated there
certifies that `c` probed reachable and was among the probed tasks. -/
theorem c2_amended_witness :
    (fun u => u == "c") "c" = true ∧
    "c" ∈ (heal_run [("e", "#EXTINF:-1,X")]
        [("x", [("a", "ia"), ("b", "ib"), ("c", "ic"), ("e", "ie")])]
        [("a", "ia"), ("b", "ib"), ("c", "ic"), ("e", "ie")] [] []
        (fun u => u == "c") 3).1 := by
  have h := c2_amended.2 [("e", "#EXTINF:-1,X")]
    [("x", [("a", "ia"), ("b", "ib"), ("c", "ic"), ("e", "ie")])]
    [("a", "ia"), ("b", "ib"), ("c", "ic"), ("e", "ie")] [] []
    (fun u => u == "c") 3 "c" (by decide)
  rcases h with h | h
  · exact absurd h (by decide)
  · exact h

/--
C3 counterexample: candidate selection does not exclude the broken endpoint
itself, and the cap is applied to the raw identity list *before* any
exclusion.  Broken endpoint `e` has identity list `[e, a, b]` and the cap is
2: the claim's selection rule (exclude `e`, then take the first 2) yields
`[a, b]`, but the code takes the first 2 of the raw list and then filters,
probing `[e, a]` — it re-probes `e` itself and never probes `b`.
-/
theorem c3_counterexample :
    (heal_run [("e", "#EXTINF:-1,X")] [("x", [("e", "ie"), ("a", "ia"), ("b", "ib")])]
        [("e", "ie"), ("a", "ia"), ("b", "ib")] [] [] (fun _ => false) 2).1 = ["e", "a"] ∧
    claimProbeSet "e" [("e", "ie"), ("a", "ia"), ("b", "ib")] [] [] 2 = ["a", "b"] := by
  decide

/--
C3 amended: for a broken endpoint `e`, the probed set is exactly the
endpoints of the first `maxC` elements (in insertion order) of the identity's
full index list — a list that contains `e` itself — that are not already in
`global_validated` and not already keys of `validated` at the start of the
replacement step; endpoints healed earlier in the same call are not excluded
from probing.  Second conjunct: with identity list `[A, B, C, D, e]`, all of
`A..D` unreachable and cap 2, only `A` and `B` are probed and no substitute
is returned.
-/
theorem c3_amended :
    (∀ (e info : String) (ridx : List (String × List (String × String)))
       (gv : List String) (validated : List (String × String)) (maxC : Nat),
      replacementTasks [(e, info)] ridx gv validated maxC
        = ((((alook ridx (pyLower (extract_channel_name info))).getD []).take maxC).filter
            (fun q => !(smem gv q.1) && !(keyMem validated q.1))).map Prod.fst) ∧
    ((heal_run [("e", "#EXTINF:-1,X")]
        [("x", [("a", "ia"), ("b", "ib"), ("c", "ic"), ("d", "idd"), ("e", "ie")])]
        [("a", "ia"), ("b", "ib"), ("c", "ic"), ("d", "idd"), ("e", "ie")] [] []
        (fun _ => false) 2)
      = (["a", "b"], ([], []))) := by
  constructor
  · intro e info ridx gv validated maxC
    unfold replacementTasks
    simp only [List.flatMap_cons, List.flatMap_nil, List.append_nil]
    exact filter_map_of_if _ _
  · decide

/--
C4 counterexample: the full-body fallback does not fire on a non-qualifying
status.  With a HEAD attempt completing with status 404 and a GET that would
return 200, the claim's probe makes the GET attempt and reports reachable,
but the code only catches *exceptions* — a completed HEAD with status 404
makes no second attempt and reports unreachable.
-/
theorem c4_counterexample :
    validate_one (some 404) (some 200) = (false, [Attempt.head]) ∧
    claimProbe (some 404) (some 200) = (true, [Attempt.head, Attempt.get]) := by decide

/--
C4 amended: the probe makes a redirect-following HEAD attempt and, only if
that attempt raises (network error, timeout, connection failure), exactly one
redirect-following GET attempt; an attempt counts as reachable iff its status
is in {200, 206, 302, 304}; a HEAD completing with any other status yields
`reachable = false` with no fallback; and both attempts failing by exception
yields `reachable = false` rather than propagating an error.
-/
theorem c4_amended :
    ∀ headR getR : Option Nat,
      ((validate_one headR getR).1 = true ↔
        ((∃ s, headR = some s ∧ statusOk s = true) ∨
         (headR = none ∧ ∃ s, getR = some s ∧ statusOk s = true))) ∧
      ((validate_one headR getR).2
        = if headR.isSome then [Attempt.head] else [Attempt.head, Attempt.get]) := by
  intro headR getR
  cases headR with
  | some s => simp [validate_one]
  | none => cases getR with
    | some s => simp [validate_one]
    | none => simp [validate_one]

/--
C5: an endpoint line in endpoint position (directly after a metadata line)
yields a record if and only if the stripped endpoint string starts with
`http`, `rtmp` or `rtsp` and does not contain the playlist-file extension
token `.m3u` (case-insensitively); every other endpoint line is rejected.
-/
theorem c5_acceptance_filter :
    ∀ info url : String, isExtinf info = true →
      ((parse_lines [info, url] ≠ []) ↔ accepts_url (pstrip url) = true) ∧
      parse_lines [info, url]
        = (if accepts_url (pstrip url) then [(pstrip url, pstrip info)] else []) := by
  intro info url h
  have hp : parse_lines [info, url]
      = (if accepts_url (pstrip url) then [(pstrip url, pstrip info)] else []) := by
    simp [parse_lines, h]
  refine ⟨?_, hp⟩
  rw [hp]
  by_cases ha : accepts_url (pstrip url) <;> simp [ha]

/-- C5 witness: a concrete accepted endpoint line yields its record. -/
theorem c5_acceptance_filter_witness :
    isExtinf "#EXTINF:-1,A" = true ∧
    (parse_lines ["#EXTINF:-1,A", " http://x "] ≠ [] ↔
      accepts_url (pstrip " http://x ") = true) :=
  ⟨by decide, (c5_acceptance_filter "#EXTINF:-1,A" " http://x " (by decide)).1⟩

/--
C6: the extracted identity of a metadata line is (a) the stripped trailing
comma-separated display name when non-empty, otherwise (b) the stripped
`tvg-name` attribute value when non-empty, otherwise (c) the literal
`"Unknown"`; consequently the extracted identity is always a non-empty
stripped (trim-idempotent) string.
-/
theorem c6_identity_priority :
    ∀ info : String,
      (trailingName info ≠ "" → extract_channel_name info = trailingName info) ∧
      (trailingName info = "" → tvgTrimmed info ≠ "" →
        extract_channel_name info = tvgTrimmed info) ∧
      (trailingName info = "" → tvgTrimmed info = "" →
        extract_channel_name info = "Unknown") ∧
      extract_channel_name info ≠ "" ∧
      pstrip (extract_channel_name info) = extract_channel_name info := by
  intro info
  unfold extract_channel_name nameFallback trailingName tvgTrimmed
  cases hc : lastCommaSuffix info.data with
  | some g =>
    by_cases hg : pstrip ⟨g⟩ = ""
    · cases ht : attrCapture "tvg-name=" info with
      | some g2 =>
        by_cases hg2 : pstrip g2 = ""
        · refine ⟨?_, ?_, ?_, ?_, ?_⟩ <;>
            simp [hg, hg2, pstrip_unknown, unknown_ne_empty]
        · refine ⟨?_, ?_, ?_, ?_, ?_⟩ <;>
            simp [hg, hg2, pstrip_idem]
      | none =>
        refine ⟨?_, ?_, ?_, ?_, ?_⟩ <;>
          simp [hg, pstrip_unknown, unknown_ne_empty]
    · refine ⟨?_, ?_, ?_, ?_, ?_⟩ <;> simp [hg, pstrip_idem]
  | none =>
    cases ht : attrCapture "tvg-name=" info with
    | some g2 =>
      by_cases hg2 : pstrip g2 = ""
      · refine ⟨?_, ?_, ?_, ?_, ?_⟩ <;>
          simp [hg2, pstrip_unknown, unknown_ne_empty]
      · refine ⟨?_, ?_, ?_, ?_, ?_⟩ <;> simp [hg2, pstrip_idem]
    | none =>
      refine ⟨?_, ?_, ?_, ?_, ?_⟩ <;> simp [pstrip_unknown, unknown_ne_empty]

/-- C6 witness: a metadata line with an empty trailing name falls back to the
`tvg-name` attribute. -/
theorem c6_identity_priority_witness :
    extract_channel_name "#EXTINF:-1 tvg-name=\"Fox\"," = "Fox" := by
  have h := (c6_identity_priority "#EXTINF:-1 tvg-name=\"Fox\",").2.1 (by decide) (by decide)
  rw [h]
  decide

/--
C7 counterexample: not every adjacent metadata-then-accepted-endpoint pair
yields a record.  In `["#EXTINF:a", "#EXTINF:b", "http://x"]` the pair
`("#EXTINF:b", "http://x")` is a metadata line immediately followed by an
accepted endpoint line, yet the scan produces no record at all: the first
metadata line consumes the second one as its (rejected) endpoint-position
line and the cursor jumps past it.
-/
theorem c7_counterexample :
    parse_lines ["#EXTINF:a", "#EXTINF:b", "http://x"] = [] ∧
    motifRecords ["#EXTINF:a", "#EXTINF:b", "http://x"]
      = [("http://x", "#EXTINF:b")] := by decide

/--
C7 amended: provided no metadata line is immediately preceded by another
metadata line, a record is produced exactly at each occurrence of a metadata
line immediately followed by an endpoint line passing the acceptance filter;
lines not part of such a pair yield none, and a trailing metadata line with
no following line is dropped silently.  (Without that proviso the scanner's
two-line skip can consume a metadata line as a failed endpoint-position
line — see the counterexample.)
-/
theorem c7_amended :
    ∀ doc : List String, noAdjExtinf doc = true → parse_lines doc = motifRecords doc := by
  intro doc
  induction doc using parse_lines.induct with
  | case1 => intro _; rfl
  | case2 l => intro _; rfl
  | case3 l1 l2 rest h ih =>
    intro hna
    have h2 : isExtinf l2 = false := by
      unfold noAdjExtinf at hna
      obtain ⟨hh, -⟩ := Bool.and_eq_true_iff.mp hna
      cases he : isExtinf l2
      · rfl
      · rw [h, he] at hh; exact absurd hh (by decide)
    have hrest : noAdjExtinf rest = true := noAdj_tail _ _ (noAdj_tail _ _ hna)
    have hl : parse_lines (l1 :: l2 :: rest)
        = (if accepts_url (pstrip l2) then [(pstrip l2, pstrip l1)] else [])
          ++ parse_lines rest := by
      simp [parse_lines, h]
    rw [hl, ih hrest, motif_cons, h, motif_skip l2 rest h2]
    simp
  | case4 l1 l2 rest h ih =>
    intro hna
    have h2 : isExtinf l1 = false := by
      cases hx : isExtinf l1
      · rfl
      · exact absurd hx h
    have hl : parse_lines (l1 :: l2 :: rest) = parse_lines (l2 :: rest) := by
      simp [parse_lines, h2]
    rw [hl, ih (noAdj_tail _ _ hna), motif_skip l1 (l2 :: rest) h2]

/-- C7 amended, witness: a concrete document with no adjacent metadata lines,
where the scan and the adjacent-pair reading agree. -/
theorem c7_amended_witness :
    noAdjExtinf ["#EXTINF:-1,A", "http://x", "junk"] = true ∧
    parse_lines ["#EXTINF:-1,A", "http://x", "junk"]
      = motifRecords ["#EXTINF:-1,A", "http://x", "junk"] :=
  ⟨by decide, c7_amended _ (by decide)⟩

/--
C8: within one run the built candidate mapping contains each endpoint at most
once (its key list is duplicate-free), looking an endpoint up in it returns
the info of the first occurrence in source order (`alook` over the raw stream
list is exactly first-occurrence lookup), and for every normalized identity
the records in the replacement index share no endpoint.
-/
theorem c8_unique_first_seen :
    ∀ streams : List (String × String),
      ((bulk_parse streams).1.map Prod.fst).Nodup ∧
      (∀ u, alook (bulk_parse streams).1 u = alook streams u) ∧
      (∀ k, ((((alook (bulk_parse streams).2 k).getD []).map Prod.fst)).Nodup) := by
  intro streams
  unfold bulk_parse
  have hinv := bulk_fold_inv streams ([], [])
    ⟨by simp, by intro k lst hlk; exact absurd hlk (by simp [alook])⟩
  refine ⟨hinv.1, ?_, ?_⟩
  · intro u
    have hb := bulk_fold_alook streams ([], []) u
    simpa [alook] using hb
  · intro k
    cases hl : alook (streams.foldl bulkStep ([], [])).2 k with
    | none => simp
    | some lst => simpa using (hinv.2 k lst hl).1

/--
C9: a document containing no `#EXTINF:`-marker line parses to zero records;
the scan is total (defined for every line list, never reading past the end)
and raises nothing.
-/
theorem c9_malformed_tolerance :
    ∀ doc : List String, (∀ l ∈ doc, isExtinf l = false) → parse_lines doc = [] := by
  intro doc
  induction doc using parse_lines.induct with
  | case1 => intro _; rfl
  | case2 l => intro _; rfl
  | case3 l1 l2 rest h ih =>
    intro hall
    have hfalse := hall l1 (List.mem_cons_self l1 _)
    rw [h] at hfalse
    exact absurd hfalse (by decide)
  | case4 l1 l2 rest h ih =>
    intro hall
    have h2 : isExtinf l1 = false := by
      cases hx : isExtinf l1
      · rfl
      · exact absurd hx h
    have hl : parse_lines (l1 :: l2 :: rest) = parse_lines (l2 :: rest) := by
      simp [parse_lines, h2]
    rw [hl]
    exact ih (fun l hl2 => hall l (List.mem_cons_of_mem _ hl2))

/-- C9 witness: a concrete marker-free blob yields zero records. -/
theorem c9_malformed_tolerance_witness :
    parse_lines ["hello world", "http://x"] = [] :=
  c9_malformed_tolerance _ (by decide)

/--
C10: every entry written to the published snapshot document has its
reachability flag `ok` equal to `true`; the entries are keyed by endpoint
with no duplicates; every endpoint whose probe outcome was unreachable (in
particular, broken endpoints that were not healed) is entirely absent from
the entries; the run-level total equals the number of entries; and every
endpoint of the run whose probe failed is also entirely absent from the
emitted playlist — it occurs on none of the playlist's lines, neither as an
endpoint line (all of those probed reachable) nor as the header or a
metadata line (an accepted endpoint starts with `http`/`rtmp`/`rtsp` while
those lines start with `#`).
-/
theorem c10_snapshot_entries :
    ∀ (contents : List (List String)) (reachable : String → Bool),
      ((json_entries (run_pipeline contents reachable)).map Prod.fst).Nodup ∧
      (∀ q ∈ json_entries (run_pipeline contents reachable), q.2.ok = true) ∧
      global_total (run_pipeline contents reachable)
        = (json_entries (run_pipeline contents reachable)).length ∧
      (∀ u, reachable u = false →
        alook (json_entries (run_pipeline contents reachable)) u = none) ∧
      (∀ u, keyMem (bulk_parse (parse_m3u_chunk contents)).1 u = true →
        reachable u = false → u ∉ build_m3u (run_pipeline contents reachable)) := by
  intro contents reachable
  obtain ⟨hnd, hre⟩ := run_pipeline_inv contents reachable
  have hkeys : (json_entries (run_pipeline contents reachable)).map Prod.fst
      = (run_pipeline contents reachable).map Prod.fst := by
    unfold json_entries
    rw [List.map_map]
    rfl
  refine ⟨?_, ?_, ?_, ?_, ?_⟩
  · rw [hkeys]; exact hnd
  · intro q hq
    obtain ⟨p, -, hpq⟩ := List.mem_map.mp hq
    rw [← hpq]
  · unfold global_total json_entries
    rw [List.length_map]
  · intro u hu
    refine (alook_eq_none _ _).mpr ?_
    rw [hkeys]
    intro hmem
    obtain ⟨p, hp, hp1⟩ := List.mem_map.mp hmem
    have := hre p hp
    rw [hp1, hu] at this
    exact absurd this (by decide)
  · intro u hk hu hmem
    have hacc : accepts_url u = true := candidate_key_accepts contents u hk
    unfold build_m3u at hmem
    rcases List.mem_cons.mp hmem with hh | hh
    · rw [hh] at hacc
      exact absurd hacc (by decide)
    · obtain ⟨p, hp, hup⟩ := List.mem_flatMap.mp hh
      rcases List.mem_cons.mp hup with h2 | h2
      · have hext := run_pipeline_info contents reachable p hp
        have hnotext := accepts_not_extinf u hacc
        rw [h2, hext] at hnotext
        exact absurd hnotext (by decide)
      · simp only [List.mem_singleton] at h2
        have hre2 := hre p hp
        rw [← h2, hu] at hre2
        exact absurd hre2 (by decide)

/-- C10 witness: in a concrete run with one reachable and one broken
endpoint, the published entry carries `ok = true`, and the broken unhealed
endpoint is absent both from the snapshot entries and from the emitted
playlist. -/
theorem c10_snapshot_entries_witness :
    (fun u => u == "http://good") "http://bad" = false ∧
    (("http://good",
        ({ info := "#EXTINF:-1,A", ok := true, title := "A", typ := "live",
           synopsis := "Live broadcast channel: A.", image := "" } : PublishedEntry)).2.ok
      = true) ∧
    alook (json_entries (run_pipeline
      [["#EXTINF:-1,A", "http://good", "#EXTINF:-1,B", "http://bad"]]
      (fun u => u == "http://good"))) "http://bad" = none ∧
    "http://bad" ∉ build_m3u (run_pipeline
      [["#EXTINF:-1,A", "http://good", "#EXTINF:-1,B", "http://bad"]]
      (fun u => u == "http://good")) :=
  ⟨by decide,
   (c10_snapshot_entries [["#EXTINF:-1,A", "http://good", "#EXTINF:-1,B", "http://bad"]]
     (fun u => u == "http://good")).2.1 _ (by decide),
   (c10_snapshot_entries [["#EXTINF:-1,A", "http://good", "#EXTINF:-1,B", "http://bad"]]
     (fun u => u == "http://good")).2.2.2.1 "http://bad" (by decide),
   (c10_snapshot_entries [["#EXTINF:-1,A", "http://good", "#EXTINF:-1,B", "http://bad"]]
     (fun u => u == "http://good")).2.2.2.2 "http://bad" (by decide) (by decide)⟩

end IPTV
